import Mathlib

/-
Verification of the access-control evaluator core
(pkg/services/accesscontrol/evaluator.go): scope matching, the
Permission/All/Any evaluator tree, scope modification, and the
attribute scope-resolver helper scopePrefix.

Modelling choices:
- Go strings are modelled as lists of characters (`GoStr`).
- Go `error` values are modelled as `Option Err` with `Err` an opaque
  message type (`none` = nil error); functions returning `(T, error)`
  return a pair, and functions whose Go value is discarded on error
  (such as ModifyScopes, which returns `nil, err`) return `Except`.
- `map[string]map[string]struct{}` (permissions grouped by action) is an
  association list from an action to the list of granted scopes for it;
  map lookup is association-list lookup.  Go map iteration order is
  unspecified, but the only map the code iterates over is the inner
  scope set, and (as proved below) the result of that loop does not
  depend on the order, because `match` never returns an error.
-/

/-- A Go string, as its sequence of characters. -/
abbrev GoStr := List Char

/-- A Go error's payload; the evaluator never inspects it. -/
abbrev Err := String

/-- Modelled from the spec: `ValidateScope` is called by `match` but its body
is not among the source files.  Per the spec (§4.1) and the log message inside
`match` ("scopes should not contain meta-characters like * or ?, except in the
last position"), a scope is valid when no meta-character occurs before the
last position. -/
def validateScope (scope : GoStr) : Bool :=
  scope.dropLast.all (fun c => !(c == '*' || c == '?'))

/-- The source's `match(scope, target string) (bool, error)`: empty scope
never matches; an invalid scope is logged and never matches; a scope ending
in `*` matches any target beginning with the scope minus the `*`; otherwise
exact equality.  (`match` is a Lean keyword, hence the name `matchScope`.) -/
def matchScope (scope target : GoStr) : Bool × Option Err :=
  if scope = [] then (false, none)
  else if !validateScope scope then (false, none)
  else
    let stem := scope.dropLast
    let lastc := scope.getLastD ' '
    if lastc == '*' && stem.isPrefixOf target then (true, none)
    else (scope == target, none)

/-- `map[string]map[string]struct{}`: for each action, the granted scopes. -/
abbrev GrantedPermissions := List (GoStr × List GoStr)

/-- `permissions[p.Action]`: association-list lookup of the granted scopes of
an action. -/
def lookupAction (perms : GrantedPermissions) (action : GoStr) : Option (List GoStr) :=
  (perms.find? (fun e => e.1 == action)).map (fun e => e.2)

/-- The inner loop of `permissionEvaluator.Evaluate`: run `match` of each
granted scope against the target, returning the error as soon as one occurs
and breaking on the first granted scope that matches. -/
def scopeLoop : List GoStr → GoStr → Bool × Option Err
  | [], _ => (false, none)
  | s :: rest, target =>
    match matchScope s target with
    | (_, some e) => (false, some e)
    | (true, none) => (true, none)
    | (false, none) => scopeLoop rest target

/-- The outer loop of `permissionEvaluator.Evaluate`: every required target
scope must be matched by some granted scope; an error aborts evaluation. -/
def targetLoop (userScopes : List GoStr) : List GoStr → Bool × Option Err
  | [] => (true, none)
  | target :: rest =>
    match scopeLoop userScopes target with
    | (_, some e) => (false, some e)
    | (true, none) => targetLoop userScopes rest
    | (false, none) => (false, none)

/-- `permissionEvaluator.Evaluate`: look the action up; absent action is
false, empty scope list is true, otherwise both loops above.  A Go slice may
be nil or non-nil-but-empty; `Scopes` is `Option (List GoStr)` (`none` = nil
slice); `len(p.Scopes) == 0` holds of both `none` and `some []`. -/
def permissionEvaluate (action : GoStr) (scopes : Option (List GoStr))
    (perms : GrantedPermissions) : Bool × Option Err :=
  match lookupAction perms action with
  | none => (false, none)
  | some userScopes =>
    if (scopes.getD []).isEmpty then (true, none)
    else targetLoop userScopes (scopes.getD [])

/-- The closed evaluator tree: `permissionEvaluator`, `allEvaluator`,
`anyEvaluator` (the three implementations of the `Evaluator` interface in the
source file). -/
inductive Evaluator where
  | permission (action : GoStr) (scopes : Option (List GoStr))
  | all (children : List Evaluator)
  | any (children : List Evaluator)

/-- `EvalPermission(action, scopes...)`: a leaf (a nil `scopes` slice when no
scope argument is passed). -/
def EvalPermission (action : GoStr) (scopes : Option (List GoStr)) : Evaluator :=
  .permission action scopes

/-- `EvalAll(allOf...)`. -/
def EvalAll (children : List Evaluator) : Evaluator := .all children

/-- `EvalAny(anyOf...)`. -/
def EvalAny (children : List Evaluator) : Evaluator := .any children

mutual

/-- `Evaluate(permissions map[string]map[string]struct{}) (bool, error)` on
each of the three evaluator kinds. -/
def Evaluator.evaluate : Evaluator → GrantedPermissions → Bool × Option Err
  | .permission a ss, perms => permissionEvaluate a ss perms
  | .all cs, perms => evalAll cs perms
  | .any cs, perms => evalAny cs perms

/-- The loop of `allEvaluator.Evaluate`: `if ok, err := e.Evaluate(p); !ok ||
err != nil { return false, err }`; all children passed means `(true, nil)`. -/
def evalAll : List Evaluator → GrantedPermissions → Bool × Option Err
  | [], _ => (true, none)
  | e :: rest, perms =>
    let r := Evaluator.evaluate e perms
    if !r.1 || r.2.isSome then (false, r.2) else evalAll rest perms

/-- The loop of `anyEvaluator.Evaluate`: an error returns `(false, err)` at
once, a true child returns `(true, nil)` at once; no child true means
`(false, nil)`. -/
def evalAny : List Evaluator → GrantedPermissions → Bool × Option Err
  | [], _ => (false, none)
  | e :: rest, perms =>
    let r := Evaluator.evaluate e perms
    if r.2.isSome then (false, r.2)
    else if r.1 then (true, none)
    else evalAny rest perms

end

/-- `ScopeModifier func(string) (string, error)`: a Go function value
returning a rewritten scope and an error; the rewritten value is discarded by
every caller when the error is non-nil. -/
abbrev ScopeModifier := GoStr → GoStr × Option Err

/-- The loop of `permissionEvaluator.ModifyScopes` over a non-nil scope
slice: apply the modifier to each scope in order, abort on the first error,
otherwise collect the rewritten scopes in order. -/
def mapScopes (fn : ScopeModifier) : List GoStr → Except Err (List GoStr)
  | [] => .ok []
  | s :: rest =>
    match fn s with
    | (_, some e) => .error e
    | (r, none) =>
      match mapScopes fn rest with
      | .error e => .error e
      | .ok tl => .ok (r :: tl)

/-- `permissionEvaluator.ModifyScopes`: a nil scope slice yields
`EvalPermission(p.Action)` (a fresh leaf, nil scopes, the modifier never
called); otherwise the loop above, the collected scopes put on a fresh leaf
with the same action. -/
def permissionModifyScopes (action : GoStr) (scopes : Option (List GoStr))
    (fn : ScopeModifier) : Except Err Evaluator :=
  match scopes with
  | none => .ok (.permission action none)
  | some ss =>
    match mapScopes fn ss with
    | .error e => .error e
    | .ok rs => .ok (.permission action (some rs))

mutual

/-- `ModifyScopes(fn ScopeModifier) (Evaluator, error)` on each evaluator
kind: a leaf rewrites its scopes; `allEvaluator`/`anyEvaluator` rewrite every
child in order and rebuild the same combinator. -/
def Evaluator.modifyScopes : Evaluator → ScopeModifier → Except Err Evaluator
  | .permission a ss, fn => permissionModifyScopes a ss fn
  | .all cs, fn =>
    match modifyList cs fn with
    | .error e => .error e
    | .ok rs => .ok (.all rs)
  | .any cs, fn =>
    match modifyList cs fn with
    | .error e => .error e
    | .ok rs => .ok (.any rs)

/-- The child loop shared by `allEvaluator.ModifyScopes` and
`anyEvaluator.ModifyScopes`: rewrite each child in order, abort on the first
child error. -/
def modifyList : List Evaluator → ScopeModifier → Except Err (List Evaluator)
  | [], _ => .ok []
  | e :: rest, fn =>
    match Evaluator.modifyScopes e fn with
    | .error err => .error err
    | .ok r =>
      match modifyList rest fn with
      | .error err => .error err
      | .ok rs => .ok (r :: rs)

end

/-- Modelled from the spec: `scopePrefix` is exercised by `Test_scopePrefix`
but its body is not among the source files.  Per the spec (§4.5) it returns
the substring through the second colon inclusive when the scope has at least
two colons, and the scope unchanged otherwise.  `scopePrefixAux scope n`
returns the characters through the (n+1)-th colon when that colon exists. -/
def scopePrefixAux : GoStr → Nat → Option GoStr
  | [], _ => none
  | c :: rest, n =>
    if c = ':' then
      match n with
      | 0 => some [c]
      | m + 1 => (scopePrefixAux rest m).map (fun tl => c :: tl)
    else (scopePrefixAux rest n).map (fun tl => c :: tl)

/-- Modelled from the spec: see `scopePrefixAux`. -/
def scopePrefix (scope : GoStr) : GoStr :=
  (scopePrefixAux scope 1).getD scope

/-- One child's `Evaluate` outcome: `(bool, error)`. -/
abbrev EvalResult := Bool × Option Err

/-- The loop body of `anyEvaluator.Evaluate` as a function of the children's
`Evaluate` outcomes.  In Go the children are arbitrary implementations of the
`Evaluator` interface, so the loop is determined by this outcome list alone:
`if err != nil { return false, err }; if ok { return true, nil }`. -/
def anyResLoop : List EvalResult → EvalResult
  | [] => (false, none)
  | r :: rest =>
    if r.2.isSome then (false, r.2)
    else if r.1 then (true, none)
    else anyResLoop rest

/-- The loop body of `allEvaluator.Evaluate` as a function of the children's
`Evaluate` outcomes: `if ok, err := e.Evaluate(p); !ok || err != nil { return
false, err }`. -/
def allResLoop : List EvalResult → EvalResult
  | [] => (true, none)
  | r :: rest => if !r.1 || r.2.isSome then (false, r.2) else allResLoop rest

/-! ## Helper lemmas -/

/-- Sanity check, the spec's concrete cases: an action-only leaf evaluates
true when the action is granted and false when the permission map is empty. -/
theorem evaluate_spec_cases :
    (EvalPermission "users:read".data none).evaluate [("users:read".data, [])]
        = (true, none) ∧
    (EvalPermission "users:read".data none).evaluate [] = (false, none) := by
  exact ⟨by decide, by decide⟩

theorem matchScope_snd (scope target : GoStr) : (matchScope scope target).2 = none := by
  unfold matchScope
  split
  · rfl
  · split
    · rfl
    · dsimp only
      split <;> rfl

theorem scopeLoop_eq (us : List GoStr) (target : GoStr) :
    scopeLoop us target = (us.any (fun s => (matchScope s target).1), none) := by
  induction us with
  | nil => rfl
  | cons s rest ih =>
    have hs := matchScope_snd s target
    rw [scopeLoop]
    cases h : matchScope s target with
    | mk b e =>
      rw [h] at hs
      subst hs
      cases b with
      | false => simpa [h] using ih
      | true => simp [h]

theorem targetLoop_eq (us : List GoStr) (ts : List GoStr) :
    targetLoop us ts =
      (ts.all (fun t => us.any (fun s => (matchScope s t).1)), none) := by
  induction ts with
  | nil => rfl
  | cons t rest ih =>
    rw [targetLoop, scopeLoop_eq]
    by_cases h : us.any (fun s => (matchScope s t).1) = true
    · simp [h, ih]
    · simp only [Bool.not_eq_true] at h
      simp [h]

theorem evalAny_eq (cs : List Evaluator) (perms : GrantedPermissions) :
    evalAny cs perms = anyResLoop (cs.map (fun c => c.evaluate perms)) := by
  induction cs with
  | nil => rfl
  | cons c rest ih => rw [evalAny, List.map_cons, anyResLoop, ih]

theorem evalAll_eq (cs : List Evaluator) (perms : GrantedPermissions) :
    evalAll cs perms = allResLoop (cs.map (fun c => c.evaluate perms)) := by
  induction cs with
  | nil => rfl
  | cons c rest ih => rw [evalAll, List.map_cons, allResLoop, ih]

theorem anyResLoop_skip (skipped l : List EvalResult)
    (h : ∀ r ∈ skipped, r = (false, none)) :
    anyResLoop (skipped ++ l) = anyResLoop l := by
  induction skipped with
  | nil => rfl
  | cons r rest ih =>
    have hr := h r (by simp)
    subst hr
    rw [List.cons_append, anyResLoop]
    simpa using ih (fun r hr => h r (by simp [hr]))

theorem allResLoop_skip (skipped l : List EvalResult)
    (h : ∀ r ∈ skipped, r = (true, none)) :
    allResLoop (skipped ++ l) = allResLoop l := by
  induction skipped with
  | nil => rfl
  | cons r rest ih =>
    have hr := h r (by simp)
    subst hr
    rw [List.cons_append, allResLoop]
    simpa using ih (fun r hr => h r (by simp [hr]))

/-! ## Claim theorems -/

/-- C1: for every granted-permission map and permission leaf, `Evaluate`
returns `(false, nil)` when the map has no entry for the leaf's action;
`(true, nil)` when the action is present and the scope list is empty; and
when the action is present and the scope list is non-empty it returns true
(with nil error) iff every required scope is matched, per the scope matcher,
by at least one granted scope of that action. -/
theorem C1_permissionEvaluator_Evaluate (a : GoStr) (ss : Option (List GoStr))
    (perms : GrantedPermissions) :
    (lookupAction perms a = none →
      (EvalPermission a ss).evaluate perms = (false, none)) ∧
    (∀ us, lookupAction perms a = some us → ss.getD [] = [] →
      (EvalPermission a ss).evaluate perms = (true, none)) ∧
    (∀ us, lookupAction perms a = some us → ss.getD [] ≠ [] →
      (EvalPermission a ss).evaluate perms =
        (decide (∀ t ∈ ss.getD [], ∃ s ∈ us, (matchScope s t).1 = true), none)) := by
  refine ⟨fun h => ?_, fun us h hss => ?_, fun us h hss => ?_⟩
  · simp [EvalPermission, Evaluator.evaluate, permissionEvaluate, h]
  · simp [EvalPermission, Evaluator.evaluate, permissionEvaluate, h, hss]
  · have hne : ((ss.getD []).isEmpty) = false := by
      simpa [List.isEmpty_iff] using hss
    simp only [EvalPermission, Evaluator.evaluate, permissionEvaluate, h, hne,
      Bool.false_eq_true, if_false, targetLoop_eq]
    refine Prod.ext ?_ rfl
    rw [Bool.eq_iff_iff]
    simp [List.all_eq_true, List.any_eq_true]

/-- C9: the scope matcher returns a nil error on every path, and a permission
leaf's `Evaluate` therefore never returns a non-nil error (its
error-propagation branch is unreachable). -/
theorem C9_match_never_errors (scope target a : GoStr)
    (ss : Option (List GoStr)) (perms : GrantedPermissions) :
    (matchScope scope target).2 = none ∧
    ((EvalPermission a ss).evaluate perms).2 = none := by
  refine ⟨matchScope_snd scope target, ?_⟩
  simp only [EvalPermission, Evaluator.evaluate, permissionEvaluate]
  cases h : lookupAction perms a with
  | none => rfl
  | some us =>
    dsimp only
    split
    · rfl
    · rw [targetLoop_eq]

/-- C10: for every granted-permission map, an `allEvaluator` with zero
children evaluates to `(true, nil)` while an `anyEvaluator` with zero
children evaluates to `(false, nil)`. -/
theorem C10_empty_combinators (perms : GrantedPermissions) :
    (EvalAll []).evaluate perms = (true, none) ∧
    (EvalAny []).evaluate perms = (false, none) := by
  constructor
  · rw [EvalAll, Evaluator.evaluate, evalAll]
  · rw [EvalAny, Evaluator.evaluate, evalAny]

/-- C4: `anyEvaluator.Evaluate` is the loop `anyResLoop` over the children's
outcomes in list order; once every earlier child returned `(false, nil)`, a
child returning true yields `(true, nil)` regardless of the outcomes of the
remaining children (they are not evaluated), a child returning an error
yields `(false, err)` regardless of the remaining children — even when one of
them would return true — and if every child returns `(false, nil)` the result
is `(false, nil)`. -/
theorem C4_anyEvaluator_Evaluate (skipped rest : List EvalResult) (b : Bool)
    (e : Err) (perms : GrantedPermissions) :
    (∀ cs : List Evaluator,
      (EvalAny cs).evaluate perms = anyResLoop (cs.map (fun c => c.evaluate perms))) ∧
    ((∀ r ∈ skipped, r = (false, none)) →
      anyResLoop (skipped ++ (true, none) :: rest) = (true, none)) ∧
    ((∀ r ∈ skipped, r = (false, none)) →
      anyResLoop (skipped ++ (b, some e) :: rest) = (false, some e)) ∧
    ((∀ r ∈ skipped, r = (false, none)) → anyResLoop skipped = (false, none)) := by
  refine ⟨fun cs => ?_, fun h => ?_, fun h => ?_, fun h => ?_⟩
  · rw [EvalAny, Evaluator.evaluate, evalAny_eq]
  · rw [anyResLoop_skip _ _ h, anyResLoop]
    simp
  · rw [anyResLoop_skip _ _ h, anyResLoop]
    simp
  · have := anyResLoop_skip skipped [] h
    simpa using this

/-- C5: `allEvaluator.Evaluate` is the loop `allResLoop` over the children's
outcomes in list order; once every earlier child returned `(true, nil)`, a
child returning false with nil error yields `(false, nil)` and a child
returning an error yields `(false, err)`, in both cases regardless of the
outcomes of the remaining children (they are not evaluated); and the result
is `(true, nil)` exactly when every child returns `(true, nil)`. -/
theorem C5_allEvaluator_Evaluate (skipped rest : List EvalResult) (b : Bool)
    (e : Err) (perms : GrantedPermissions) :
    (∀ cs : List Evaluator,
      (EvalAll cs).evaluate perms = allResLoop (cs.map (fun c => c.evaluate perms))) ∧
    ((∀ r ∈ skipped, r = (true, none)) →
      allResLoop (skipped ++ (false, none) :: rest) = (false, none)) ∧
    ((∀ r ∈ skipped, r = (true, none)) →
      allResLoop (skipped ++ (b, some e) :: rest) = (false, some e)) ∧
    (∀ rs : List EvalResult, allResLoop rs = (true, none) ↔ ∀ r ∈ rs, r = (true, none)) := by
  refine ⟨fun cs => ?_, fun h => ?_, fun h => ?_, fun rs => ?_⟩
  · rw [EvalAll, Evaluator.evaluate, evalAll_eq]
  · rw [allResLoop_skip _ _ h, allResLoop]
    simp
  · rw [allResLoop_skip _ _ h, allResLoop]
    simp
  · induction rs with
    | nil => simp [allResLoop]
    | cons r tl ih =>
      cases r with
      | mk rb re =>
        cases rb <;> cases re <;> simp [allResLoop, ih]

/-- C2: for every non-empty valid granted scope and every target scope: a
granted scope ending in `*` matches iff the target starts with the granted
scope minus its final `*`; a granted scope not ending in `*` matches iff it
equals the target exactly. -/
theorem C2_match_valid_scope (scope target : GoStr)
    (hne : scope ≠ []) (hval : validateScope scope = true) :
    (∀ stem, scope = stem ++ ['*'] →
      ((matchScope scope target).1 = true ↔ stem.isPrefixOf target = true)) ∧
    (scope.getLastD ' ' ≠ '*' →
      ((matchScope scope target).1 = true ↔ scope = target)) := by
  constructor
  · rintro stem rfl
    rw [matchScope, if_neg hne]
    simp only [hval, Bool.not_true, Bool.false_eq_true, if_false,
      List.dropLast_concat, List.getLastD_concat]
    by_cases hp : stem.isPrefixOf target = true
    · simp [hp]
    · have hne2 : (stem ++ ['*'] == target) = false := by
        rw [beq_eq_false_iff_ne]
        rintro rfl
        exact hp (List.isPrefixOf_iff_prefix.mpr (List.prefix_append _ _))
      simp [hp, hne2]
  · intro hlast
    rw [matchScope, if_neg hne]
    have hc : ¬((scope.getLast?).getD ' ' = '*') := by
      rw [← List.getLastD_eq_getLast?]
      exact hlast
    simp [hval, hc, beq_iff_eq]

/-- C2 witness: `datasources:*` is non-empty and valid, ends in `*`, and
matches `datasources:anything`. -/
theorem C2_match_valid_scope_witness :
    (matchScope "datasources:*".data "datasources:anything".data).1 = true :=
  ((C2_match_valid_scope "datasources:*".data "datasources:anything".data
      (by decide) (by decide)).1 "datasources:".data (by decide)).mpr (by decide)

/-- C3: the matcher fails closed: an empty granted scope yields
`(false, nil)` for every target, and a granted scope with a wildcard
anywhere before the last position yields `(false, nil)` for every target —
never true, never a propagated error. -/
theorem C3_match_fail_closed (scope target : GoStr) :
    matchScope [] target = (false, none) ∧
    ('*' ∈ scope.dropLast → matchScope scope target = (false, none)) := by
  refine ⟨rfl, fun h => ?_⟩
  have hne : scope ≠ [] := by
    intro hs
    subst hs
    simp at h
  have hval : validateScope scope = false := by
    rw [validateScope, List.all_eq_false]
    exact ⟨'*', h, by decide⟩
  rw [matchScope, if_neg hne]
  simp [hval]

theorem mapScopes_ok (fn : ScopeModifier) (ss : List GoStr)
    (h : ∀ s ∈ ss, (fn s).2 = none) :
    mapScopes fn ss = .ok (ss.map (fun s => (fn s).1)) := by
  induction ss with
  | nil => rfl
  | cons s rest ih =>
    have hs := h s (by simp)
    rw [mapScopes]
    cases hf : fn s with
    | mk r er =>
      rw [hf] at hs
      subst hs
      rw [ih (fun x hx => h x (by simp [hx]))]
      simp [hf]

theorem mapScopes_error (fn : ScopeModifier) (skipped rest : List GoStr)
    (s : GoStr) (e : Err) (h : ∀ p ∈ skipped, (fn p).2 = none)
    (hs : (fn s).2 = some e) :
    mapScopes fn (skipped ++ s :: rest) = .error e := by
  induction skipped with
  | nil =>
    rw [List.nil_append, mapScopes]
    cases hf : fn s with
    | mk r er =>
      rw [hf] at hs
      subst hs
      rfl
  | cons p tl ih =>
    have hp := h p (by simp)
    rw [List.cons_append, mapScopes]
    cases hf : fn p with
    | mk r er =>
      rw [hf] at hp
      subst hp
      rw [ih (fun x hx => h x (by simp [hx]))]

/-- C6: `permissionEvaluator.ModifyScopes` on a leaf with a nil scope slice
returns a fresh leaf with the same action and nil scopes without invoking the
modifier (the result does not depend on it); on a non-nil slice it applies
the modifier to each scope in list order, collecting the rewritten scopes on
a fresh leaf with the same action, and it aborts with the first failing
application's error, returning no partial result (the error value carries
nothing, and the scopes after the failing one are irrelevant). -/
theorem C6_permissionEvaluator_ModifyScopes (a : GoStr) (fn : ScopeModifier) :
    (∀ fn2 : ScopeModifier,
      (EvalPermission a none).modifyScopes fn2 = .ok (EvalPermission a none)) ∧
    (∀ ss, (∀ s ∈ ss, (fn s).2 = none) →
      (EvalPermission a (some ss)).modifyScopes fn =
        .ok (EvalPermission a (some (ss.map (fun s => (fn s).1))))) ∧
    (∀ skipped s rest e, (∀ p ∈ skipped, (fn p).2 = none) → (fn s).2 = some e →
      (EvalPermission a (some (skipped ++ s :: rest))).modifyScopes fn =
        .error e) := by
  refine ⟨fun fn2 => rfl, fun ss h => ?_, fun skipped s rest e h hs => ?_⟩
  · show permissionModifyScopes a (some ss) fn = _
    rw [permissionModifyScopes, mapScopes_ok fn ss h]
    rfl
  · show permissionModifyScopes a (some (skipped ++ s :: rest)) fn = _
    rw [permissionModifyScopes, mapScopes_error fn skipped rest s e h hs]

theorem modifyList_error (fn : ScopeModifier) (skipped rest : List Evaluator)
    (c : Evaluator) (e : Err)
    (h : ∀ p ∈ skipped, ∃ r, Evaluator.modifyScopes p fn = .ok r)
    (hc : Evaluator.modifyScopes c fn = .error e) :
    modifyList (skipped ++ c :: rest) fn = .error e := by
  induction skipped with
  | nil =>
    rw [List.nil_append, modifyList, hc]
  | cons p tl ih =>
    obtain ⟨r, hr⟩ := h p (by simp)
    rw [List.cons_append, modifyList, hr,
      ih (fun x hx => h x (by simp [hx]))]

theorem modifyList_ok_decomp (fn : ScopeModifier) (skipped rest : List Evaluator)
    (c : Evaluator) (rs : List Evaluator)
    (h : modifyList (skipped ++ c :: rest) fn = .ok rs) :
    ∃ rp rc rr, rs = rp ++ rc :: rr ∧ rp.length = skipped.length ∧
      Evaluator.modifyScopes c fn = .ok rc := by
  induction skipped generalizing rs with
  | nil =>
    rw [List.nil_append, modifyList] at h
    cases hc : Evaluator.modifyScopes c fn with
    | error e => rw [hc] at h; exact absurd h (by simp)
    | ok r =>
      rw [hc] at h
      cases ht : modifyList rest fn with
      | error e => rw [ht] at h; exact absurd h (by simp)
      | ok tl =>
        rw [ht] at h
        refine ⟨[], r, tl, ?_, rfl, rfl⟩
        simpa using h.symm
  | cons p tl ih =>
    rw [List.cons_append, modifyList] at h
    cases hp : Evaluator.modifyScopes p fn with
    | error e => rw [hp] at h; exact absurd h (by simp)
    | ok r =>
      rw [hp] at h
      cases ht : modifyList (tl ++ c :: rest) fn with
      | error e => rw [ht] at h; exact absurd h (by simp)
      | ok rs2 =>
        rw [ht] at h
        obtain ⟨rp, rc, rr, hrs2, hlen, hc⟩ := ih rs2 ht
        refine ⟨r :: rp, rc, rr, ?_, by simp [hlen], hc⟩
        have : rs = r :: rs2 := by simpa using h.symm
        simp [this, hrs2]

/-- C7: `ModifyScopes` on `allEvaluator`/`anyEvaluator` rebuilds the same
combinator kind over the child rewrites collected in order by `modifyList`;
the first child error aborts and propagates (regardless of the remaining
children); and when the whole rewrite succeeds, the child at any position is
rewritten to exactly the result `ModifyScopes` gives it standing alone — so a
leaf nested at any depth inside `EvalAll`/`EvalAny` (obtained by applying
this positional fact at each level) is rewritten exactly as when standing
alone: rewriting is structure-preserving and recursive. -/
theorem C7_combinator_ModifyScopes (fn : ScopeModifier) :
    (∀ cs, (EvalAll cs).modifyScopes fn = (modifyList cs fn).map EvalAll) ∧
    (∀ cs, (EvalAny cs).modifyScopes fn = (modifyList cs fn).map EvalAny) ∧
    (∀ skipped c rest e,
      (∀ p ∈ skipped, ∃ r, Evaluator.modifyScopes p fn = .ok r) →
      Evaluator.modifyScopes c fn = .error e →
      (EvalAll (skipped ++ c :: rest)).modifyScopes fn = .error e ∧
      (EvalAny (skipped ++ c :: rest)).modifyScopes fn = .error e) ∧
    (∀ skipped c rest t,
      (EvalAll (skipped ++ c :: rest)).modifyScopes fn = .ok t →
      ∃ rp rc rr, t = EvalAll (rp ++ rc :: rr) ∧ rp.length = skipped.length ∧
        Evaluator.modifyScopes c fn = .ok rc) ∧
    (∀ skipped c rest t,
      (EvalAny (skipped ++ c :: rest)).modifyScopes fn = .ok t →
      ∃ rp rc rr, t = EvalAny (rp ++ rc :: rr) ∧ rp.length = skipped.length ∧
        Evaluator.modifyScopes c fn = .ok rc) := by
  have hall : ∀ cs, (EvalAll cs).modifyScopes fn = (modifyList cs fn).map EvalAll := by
    intro cs
    show (match modifyList cs fn with
      | .error e => Except.error e
      | .ok rs => Except.ok (Evaluator.all rs)) = _
    cases modifyList cs fn <;> rfl
  have hany : ∀ cs, (EvalAny cs).modifyScopes fn = (modifyList cs fn).map EvalAny := by
    intro cs
    show (match modifyList cs fn with
      | .error e => Except.error e
      | .ok rs => Except.ok (Evaluator.any rs)) = _
    cases modifyList cs fn <;> rfl
  refine ⟨hall, hany, fun skipped c rest e h hc => ?_, fun skipped c rest t h => ?_,
    fun skipped c rest t h => ?_⟩
  · rw [hall, hany, modifyList_error fn skipped rest c e h hc]
    exact ⟨rfl, rfl⟩
  · rw [hall] at h
    cases hm : modifyList (skipped ++ c :: rest) fn with
    | error e => rw [hm] at h; exact absurd h (by simp [Except.map])
    | ok rs =>
      rw [hm] at h
      obtain ⟨rp, rc, rr, hrs, hlen, hc⟩ := modifyList_ok_decomp fn skipped rest c rs hm
      refine ⟨rp, rc, rr, ?_, hlen, hc⟩
      have ht : t = EvalAll rs := by simpa [Except.map] using h.symm
      rw [ht, hrs]
  · rw [hany] at h
    cases hm : modifyList (skipped ++ c :: rest) fn with
    | error e => rw [hm] at h; exact absurd h (by simp [Except.map])
    | ok rs =>
      rw [hm] at h
      obtain ⟨rp, rc, rr, hrs, hlen, hc⟩ := modifyList_ok_decomp fn skipped rest c rs hm
      refine ⟨rp, rc, rr, ?_, hlen, hc⟩
      have ht : t = EvalAny rs := by simpa [Except.map] using h.symm
      rw [ht, hrs]

theorem scopePrefixAux_none (l : GoStr) (n : Nat) (h : l.count ':' ≤ n) :
    scopePrefixAux l n = none := by
  induction l generalizing n with
  | nil => rfl
  | cons c rest ih =>
    by_cases hc : c = ':'
    · subst hc
      cases n with
      | zero =>
        exfalso
        simp [List.count_cons] at h
      | succ m =>
        have hr : rest.count ':' ≤ m := by
          simp [List.count_cons] at h
          omega
        simp [scopePrefixAux, ih m hr]
    · have hr : rest.count ':' ≤ n := by
        simpa [List.count_cons, hc] using h
      simp [scopePrefixAux, hc, ih n hr]

theorem scopePrefixAux_one (l : GoStr) (h : 1 ≤ l.count ':') :
    ∃ a rest, l = a ++ ':' :: rest ∧ ':' ∉ a ∧
      scopePrefixAux l 0 = some (a ++ [':']) := by
  induction l with
  | nil => simp at h
  | cons c rest ih =>
    by_cases hc : c = ':'
    · subst hc
      exact ⟨[], rest, rfl, by simp, by simp [scopePrefixAux]⟩
    · have hr : 1 ≤ rest.count ':' := by
        simpa [List.count_cons, hc] using h
      obtain ⟨a, r2, hl, hna, hs⟩ := ih hr
      refine ⟨c :: a, r2, by simp [hl], ?_, ?_⟩
      · intro hmem
        rcases List.mem_cons.mp hmem with h1 | h2
        · exact hc h1.symm
        · exact hna h2
      · rw [scopePrefixAux, if_neg hc, hs]
        rfl

theorem scopePrefixAux_two (l : GoStr) (h : 2 ≤ l.count ':') :
    ∃ a b rest, l = a ++ ':' :: b ++ ':' :: rest ∧ ':' ∉ a ∧ ':' ∉ b ∧
      scopePrefixAux l 1 = some (a ++ ':' :: b ++ [':']) := by
  induction l with
  | nil => simp at h
  | cons c rest ih =>
    by_cases hc : c = ':'
    · subst hc
      have hr : 1 ≤ rest.count ':' := by
        have h2 : List.count ':' (':' :: rest) = rest.count ':' + 1 := by
          simp [List.count_cons]
        omega
      obtain ⟨b, r2, hl, hnb, hs⟩ := scopePrefixAux_one rest hr
      refine ⟨[], b, r2, by simp [hl], by simp, hnb, ?_⟩
      rw [scopePrefixAux, if_pos rfl]
      show (scopePrefixAux rest 0).map (fun tl => ':' :: tl) = _
      rw [hs]
      rfl
    · have hr : 2 ≤ rest.count ':' := by
        simpa [List.count_cons, hc] using h
      obtain ⟨a, b, r2, hl, hna, hnb, hs⟩ := ih hr
      refine ⟨c :: a, b, r2, by simp [hl], ?_, hnb, ?_⟩
      · intro hmem
        rcases List.mem_cons.mp hmem with h1 | h2
        · exact hc h1.symm
        · exact hna h2
      · rw [scopePrefixAux, if_neg hc, hs]
        rfl

/-- C8: `scopePrefix` returns, for every scope with at least two colons, the
substring through the second colon inclusive (the decomposition below pins
the first two colons: no colon occurs before them), and returns the scope
unchanged when it has zero or one colon; in particular the four cases of
`Test_scopePrefix` hold. -/
theorem C8_scopePrefix_spec (scope : GoStr) :
    (2 ≤ scope.count ':' →
      ∃ a b rest, scope = a ++ ':' :: b ++ ':' :: rest ∧ ':' ∉ a ∧ ':' ∉ b ∧
        scopePrefix scope = a ++ ':' :: b ++ [':']) ∧
    (scope.count ':' < 2 → scopePrefix scope = scope) ∧
    scopePrefix "".data = "".data ∧
    scopePrefix ":".data = ":".data ∧
    scopePrefix "datasources:".data = "datasources:".data ∧
    scopePrefix "datasources:name:testds".data = "datasources:name:".data := by
  refine ⟨fun h => ?_, fun h => ?_, by decide, by decide, by decide, by decide⟩
  · obtain ⟨a, b, rest, hl, hna, hnb, hs⟩ := scopePrefixAux_two scope h
    refine ⟨a, b, rest, hl, hna, hnb, ?_⟩
    rw [scopePrefix, hs]
    rfl
  · have hle : scope.count ':' ≤ 1 := by omega
    rw [scopePrefix, scopePrefixAux_none scope 1 hle]
    rfl
